import Mathlib

/-!
Verification development for the `tree-sitter-openscad-parser` repository.

The repository's only source file is the C header
`src/libs/openscad-parser/bindings/c/tree_sitter/tree-sitter-openscad-parser.h`,
which declares the entry point `const TSLanguage *tree_sitter_openscad_parser(void)`
behind the include guard `TREE_SITTER_OPENSCAD_PARSER_H_`.  The parser behind
that header is not part of the supplied source; its design is given by the
repository's specification (token scanner, grammar table, parse engine, tree
store, incremental re-parser).  Definitions below that embed that design are
marked `Modelled from the spec:` in their doc comments; definitions embedding
the header itself are translated directly from it.
-/

/-- Modelled from the spec: the process-wide Grammar Table (spec section 4.2),
a read-only bundle of the lexical classification tables used by the scanner.
The actual generated table is not in the supplied source. -/
structure GrammarTable where
  alphaB : Nat → Bool
  digitB : Nat → Bool
  identContB : Nat → Bool
  wsB : Nat → Bool
deriving Inhabited

/-- Modelled from the spec: the singleton Grammar Table instance, initialized
once (here: a closed constant) and never mutated (spec sections 3 and 9). -/
def grammarTable : GrammarTable where
  alphaB b := (decide (65 ≤ b) && decide (b ≤ 90)) || (decide (97 ≤ b) && decide (b ≤ 122)) || decide (b = 95)
  digitB b := decide (48 ≤ b) && decide (b ≤ 57)
  identContB b :=
    (decide (65 ≤ b) && decide (b ≤ 90)) || (decide (97 ≤ b) && decide (b ≤ 122)) || decide (b = 95)
      || (decide (48 ≤ b) && decide (b ≤ 57))
  wsB b := decide (b = 32) || decide (b = 9) || decide (b = 10) || decide (b = 13)

/-- Embedding of the header's entry point `tree_sitter_openscad_parser`:
a parameterless function returning the handle to the process-wide singleton
Grammar Table.  (The Lean name drops the underscores of the C name.) -/
def treeSitterOpenscadParser : Unit → GrammarTable := fun _ => grammarTable

/-- Modelled from the spec: node and token kinds of the concrete syntax tree.
Terminal kinds come first, then the nonterminal kinds; `whitespace` is the
trivia kind, `errorTok` the lexical-error kind, `errorNode` the syntactic
error-recovery kind and `missing` the zero-width error marker for material
missing at the point of an unterminated construct. -/
inductive Kind where
  | ident | number | lparen | rparen | semi | whitespace | errorTok
  | sourceFile | statement | call | errorNode | missing
deriving DecidableEq

/-- Modelled from the spec: a half-open byte range `[start, stop)`. -/
structure Range where
  start : Nat
  stop : Nat
deriving DecidableEq

/-- Modelled from the spec: a lexical token with kind and byte range. -/
structure Token where
  kind : Kind
  start : Nat
  stop : Nat
deriving DecidableEq

/-- Modelled from the spec: one step of the Token Scanner (spec section 4.1).
Given the byte under the cursor and the remaining bytes, returns the kind of
the next token together with how many bytes beyond the first it spans
(maximal-munch for identifiers, numbers and whitespace; single byte for
punctuation; a single-byte error token for an unclassifiable byte). -/
def scanHead (g : GrammarTable) (b : Nat) (rest : List Nat) : Kind × Nat :=
  if g.alphaB b then (.ident, (rest.takeWhile g.identContB).length)
  else if g.digitB b then (.number, (rest.takeWhile g.digitB).length)
  else if b = 40 then (.lparen, 0)
  else if b = 41 then (.rparen, 0)
  else if b = 59 then (.semi, 0)
  else if g.wsB b then (.whitespace, (rest.takeWhile g.wsB).length)
  else (.errorTok, 0)

/-- Modelled from the spec: fuelled scanner loop.  Every scan step advances by
at least one byte (spec section 4.1), so fuel equal to the input length is
always sufficient; the fuel only makes the recursion structural. -/
def tokenizeFuel (g : GrammarTable) : Nat → List Nat → Nat → List Token
  | 0, _, _ => []
  | _ + 1, [], _ => []
  | f + 1, b :: rest, p =>
    let s := scanHead g b rest
    ⟨s.1, p, p + 1 + s.2⟩ :: tokenizeFuel g f (rest.drop s.2) (p + 1 + s.2)

/-- Modelled from the spec: tokenize a byte buffer whose first byte sits at
absolute position `p` in the source. -/
def tokenizeAt (g : GrammarTable) (l : List Nat) (p : Nat) : List Token :=
  tokenizeFuel g l.length l p

/-- Modelled from the spec: a Syntax Node (spec section 3): a leaf with kind
and byte range, or an interior node with kind, byte range and ordered
children. -/
inductive SNode where
  | leaf : Kind → Range → SNode
  | node : Kind → Range → List SNode → SNode

/-- Byte range of a Syntax Node. -/
def rangeOf : SNode → Range
  | .leaf _ r => r
  | .node _ r _ => r

/-- Leaf Syntax Node corresponding to a token. -/
def leafOf (t : Token) : SNode := .leaf t.kind ⟨t.start, t.stop⟩

/-- Modelled from the spec: error-recovery result when a call is unterminated
right after its `(` (spec section 4.3): the call node carries a zero-width
`missing` error marker at the point where its contents should start. -/
def brokenAfterLp (t lp : Token) : SNode :=
  .node .statement ⟨t.start, lp.stop⟩
    [.node .call ⟨t.start, lp.stop⟩ [leafOf t, leafOf lp, .leaf .missing ⟨lp.stop, lp.stop⟩]]

/-- Modelled from the spec: error-recovery result when a call is unterminated
after its numeric argument: the call node carries a zero-width `missing`
error marker covering the point of the missing `)`. -/
def brokenAfterNum (t lp num : Token) : SNode :=
  .node .statement ⟨t.start, num.stop⟩
    [.node .call ⟨t.start, num.stop⟩
      [leafOf t, leafOf lp, leafOf num, .leaf .missing ⟨num.stop, num.stop⟩]]

/-- Modelled from the spec: the statement parser of the Parse Engine (spec
sections 4.3 and 8): a statement is `ident ( number ) ;`.  On malformed or
truncated input it wraps what it consumed into nodes carrying error markers
and never consumes past the point of the failure, so the parse stays total. -/
def parseStmt (t : Token) (ts : List Token) : SNode × List Token :=
  match ts with
  | lp :: ts1 =>
    if lp.kind = .lparen then
      match ts1 with
      | num :: ts2 =>
        if num.kind = .number then
          match ts2 with
          | rp :: ts3 =>
            if rp.kind = .rparen then
              let callN : SNode := .node .call ⟨t.start, rp.stop⟩
                [leafOf t, leafOf lp, leafOf num, leafOf rp]
              match ts3 with
              | sm :: ts4 =>
                if sm.kind = .semi then
                  (.node .statement ⟨t.start, sm.stop⟩ [callN, leafOf sm], ts4)
                else
                  (.node .statement ⟨t.start, rp.stop⟩
                    [callN, .leaf .missing ⟨rp.stop, rp.stop⟩], ts3)
              | [] =>
                (.node .statement ⟨t.start, rp.stop⟩
                  [callN, .leaf .missing ⟨rp.stop, rp.stop⟩], [])
            else (brokenAfterNum t lp num, ts2)
          | [] => (brokenAfterNum t lp num, [])
        else (brokenAfterLp t lp, ts1)
      | [] => (brokenAfterLp t lp, [])
    else (.node .errorNode ⟨t.start, t.stop⟩ [leafOf t], ts)
  | [] => (.node .errorNode ⟨t.start, t.stop⟩ [leafOf t], [])

/-- Modelled from the spec: fuelled top-level loop of the Parse Engine.  Each
round consumes at least one token, so fuel equal to the token count is always
sufficient.  Trivia tokens become trivia leaves; an identifier starts a
statement; any other token is wrapped into an error-kind node (spec
section 4.3, error recovery). -/
def parseTopFuel : Nat → List Token → List SNode
  | 0, _ => []
  | _ + 1, [] => []
  | f + 1, t :: ts =>
    if t.kind = .whitespace then leafOf t :: parseTopFuel f ts
    else if t.kind = .ident then
      let r := parseStmt t ts
      r.1 :: parseTopFuel f r.2
    else .node .errorNode ⟨t.start, t.stop⟩ [leafOf t] :: parseTopFuel f ts

/-- Modelled from the spec: parse a token stream into the ordered children of
the root node. -/
def parseTop (ts : List Token) : List SNode := parseTopFuel ts.length ts

/-- Modelled from the spec: full parse against an explicitly supplied Grammar
Table handle. -/
def parseWith (g : GrammarTable) (src : List Nat) : SNode :=
  .node .sourceFile ⟨0, src.length⟩ (parseTop (tokenizeAt g src 0))

/-- Modelled from the spec: the parse entry used by hosts; it reads the
process-wide singleton Grammar Table. -/
def parse (src : List Nat) : SNode := parseWith grammarTable src

/-- Modelled from the spec: the Edit Descriptor (spec section 3):
`{start_byte, old_end_byte, new_end_byte}`. -/
structure Edit where
  start_byte : Nat
  old_end_byte : Nat
  new_end_byte : Nat

/-- Modelled from the spec: the host-side application of an edit to the text:
the bytes of `[start_byte, old_end_byte)` are replaced by `ins`. -/
def editApply (src : List Nat) (e : Edit) (ins : List Nat) : List Nat :=
  src.take e.start_byte ++ ins ++ src.drop e.old_end_byte

mutual
/-- Kind and range of the last (rightmost) leaf of a Syntax Node; an interior
node without children reports the never-matching default kind `missing`. -/
def lastLeafKR : SNode → Kind × Range
  | .leaf k r => (k, r)
  | .node _ r cs => lastLeafKRL (.missing, r) cs

/-- Kind and range of the last leaf of the last node of a list, with a
default for the empty list. -/
def lastLeafKRL : Kind × Range → List SNode → Kind × Range
  | d, [] => d
  | _, c :: cs => lastLeafKRL (lastLeafKR c) cs
end

/-- True when the rightmost leaf of a node is a `;` token, which makes the
node's right boundary a safe re-lexing boundary (nothing can merge across a
semicolon). -/
def endsInSemi (n : SNode) : Bool := decide ((lastLeafKR n).1 = Kind.semi)

/-- Modelled from the spec: the reuse boundary chosen by the Incremental
Re-parser (spec section 4.5): the rightmost top-level-child boundary that lies
at or before the edited region and ends in a semicolon token. -/
def reuseLen (cs : List SNode) (startB : Nat) : Nat :=
  cs.foldl (fun b c => if (rangeOf c).stop ≤ startB && endsInSemi c then (rangeOf c).stop else b) 0

/-- Modelled from the spec: the Incremental Re-parser (spec section 4.5):
given the previous tree and the edit descriptor, it retains the top-level
children before the reuse boundary untouched and re-invokes the Parse Engine
on the remainder of the post-edit text, splicing the results together.  (The
spec makes the extent of reuse an unobservable optimization; this model reuses
the prefix before the edit.) -/
def reparse (old : SNode) (e : Edit) (newSrc : List Nat) : SNode :=
  match old with
  | .node .sourceFile _ cs =>
    let b := reuseLen cs e.start_byte
    .node .sourceFile ⟨0, newSrc.length⟩
      (cs.takeWhile (fun c => (rangeOf c).stop ≤ b) ++ parseTop (tokenizeAt grammarTable (newSrc.drop b) b))
  | _ => parse newSrc

mutual
/-- Structural well-formedness of a Syntax Node (spec section 3 invariant):
a leaf has a well-ordered range, and an interior node's range is exactly the
union of its children's ranges, which sit contiguously, without overlap and in
order. -/
def nodeWf : SNode → Bool
  | .leaf _ r => decide (r.start ≤ r.stop)
  | .node _ r cs => childrenWf r.start cs r.stop

/-- Checks that a node list is chained contiguously from `p` to `q`: each
node starts exactly where its predecessor stopped, and each node is
well-formed. -/
def childrenWf : Nat → List SNode → Nat → Bool
  | p, [], q => decide (p = q)
  | p, c :: cs, q => decide ((rangeOf c).start = p) && nodeWf c && childrenWf (rangeOf c).stop cs q
end

mutual
/-- Byte ranges of the leaves of a Syntax Node, left to right. -/
def leafRanges : SNode → List Range
  | .leaf _ r => [r]
  | .node _ _ cs => leafRangesL cs

/-- Byte ranges of the leaves of a node list, left to right. -/
def leafRangesL : List SNode → List Range
  | [] => []
  | c :: cs => leafRanges c ++ leafRangesL cs
end

/-- Checks that a list of ranges is an exact partition chain of `[p, q)`:
the first range starts at `p`, each range starts where the previous stopped,
each range is well-ordered, and the last stops at `q`. -/
def chainR : Nat → List Range → Nat → Bool
  | p, [], q => decide (p = q)
  | p, r :: rs, q => decide (r.start = p) && decide (r.start ≤ r.stop) && chainR r.stop rs q

/-- Checks that a token list is chained contiguously from `p` to `q` with
every token nonempty. -/
def tchain : Nat → List Token → Nat → Bool
  | p, [], q => decide (p = q)
  | p, t :: ts, q => decide (t.start = p) && decide (t.start < t.stop) && tchain t.stop ts q

mutual
/-- Checks that every `;` leaf of a node records a genuine single `;` byte of
the source at its start position. -/
def semiByteOk (src : List Nat) : SNode → Bool
  | .leaf k r => !(decide (k = Kind.semi)) || (decide (r.stop = r.start + 1) && decide (src[r.start]? = some 59))
  | .node _ _ cs => semiByteOkL src cs

/-- List form of `semiByteOk`. -/
def semiByteOkL (src : List Nat) : List SNode → Bool
  | [] => true
  | c :: cs => semiByteOk src c && semiByteOkL src cs
end

/-- True when the scanner cannot classify the byte: it starts no identifier,
number or whitespace run and is none of the punctuation bytes. -/
def unclassifiable (b : Nat) : Bool :=
  !grammarTable.alphaB b && !grammarTable.digitB b && !(decide (b = 40)) &&
    !(decide (b = 41)) && !(decide (b = 59)) && !grammarTable.wsB b

/-- Modelled from the spec: a parse call seen as a transformer of the process
state, whose only component is the Grammar Table; it returns the tree and the
table state after the call. -/
def parseStep (g : GrammarTable) (src : List Nat) : SNode × GrammarTable :=
  (parseWith g src, g)

/-- Modelled from the spec: an entry-point call seen as a transformer of the
process state: it returns the singleton handle and the table state after the
call. -/
def entryStep (g : GrammarTable) (_ : Unit) : GrammarTable × GrammarTable :=
  (treeSitterOpenscadParser (), g)

/-- Declarations introduced by the body of the header
`tree-sitter-openscad-parser.h`: the `typedef struct TSLanguage TSLanguage`
and the prototype of `tree_sitter_openscad_parser`. -/
inductive CDecl where
  | typedefTSLanguage
  | declEntryPoint
deriving DecidableEq

/-- Translation of the header file's preprocessing behaviour: the whole body
sits between `#ifndef TREE_SITTER_OPENSCAD_PARSER_H_` and `#endif`, with
`#define TREE_SITTER_OPENSCAD_PARSER_H_` first in the body.  Input: whether
the guard macro is already defined; output: the declarations emitted and the
guard state afterwards. -/
def includeHeaderOnce (guardDefined : Bool) : List CDecl × Bool :=
  if guardDefined then ([], true)
  else ([CDecl.typedefTSLanguage, CDecl.declEntryPoint], true)

/-- Declarations emitted by including the header `n` times in sequence in one
translation unit, starting from guard state `g`. -/
def includeHeaderN : Nat → Bool → List CDecl
  | 0, _ => []
  | n + 1, g => (includeHeaderOnce g).1 ++ includeHeaderN n (includeHeaderOnce g).2

/-- Length bound for `takeWhile`. -/
theorem takeWhile_len_le {α : Type} (p : α → Bool) (l : List α) :
    (l.takeWhile p).length ≤ l.length :=
  (List.takeWhile_sublist p).length_le

/-- Strict length bound for `takeWhile` when some member fails the test. -/
theorem takeWhile_len_lt {α : Type} (p : α → Bool) {l : List α} {x : α}
    (hx : x ∈ l) (hpx : p x = false) : (l.takeWhile p).length < l.length := by
  induction l with
  | nil => cases hx
  | cons a l ih =>
    by_cases ha : p a = true
    · rw [List.takeWhile_cons_of_pos ha]
      have hxl : x ∈ l := by
        rcases List.mem_cons.mp hx with h | h
        · subst h; rw [ha] at hpx; cases hpx
        · exact h
      simpa using ih hxl
    · rw [List.takeWhile_cons_of_neg ha]
      simp

/-- The maximal munch of `takeWhile` does not reach past a failing member:
appending further input does not change the result. -/
theorem takeWhile_app_stop {α : Type} (p : α → Bool) {l : List α} (m : List α) {x : α}
    (hx : x ∈ l) (hpx : p x = false) : (l ++ m).takeWhile p = l.takeWhile p := by
  rw [List.takeWhile_append, if_neg]
  exact Nat.ne_of_lt (takeWhile_len_lt p hx hpx)

/-- Dropping fewer elements than the length preserves the last element. -/
theorem getLast?_drop_of_lt {α : Type} : ∀ {l : List α} {n : Nat}, n < l.length →
    (l.drop n).getLast? = l.getLast?
  | _ :: _, 0, _ => rfl
  | a :: l, n + 1, h => by
    have hl : n < l.length := by simpa using h
    have hne : l ≠ [] := by
      intro hnil; rw [hnil] at hl; simp at hl
    rw [List.drop_succ_cons, getLast?_drop_of_lt hl]
    obtain ⟨c, cs, rfl⟩ := List.exists_cons_of_ne_nil hne
    rw [List.getLast?_cons_cons]

/-- Scanner step: the munch length never exceeds the remaining input. -/
theorem scan_extra_le (g : GrammarTable) (b : Nat) (rest : List Nat) :
    (scanHead g b rest).2 ≤ rest.length := by
  unfold scanHead
  split_ifs <;> simp [takeWhile_len_le]

/-- Fuel irrelevance for the scanner loop: any fuel at least the input length
produces the same token list. -/
theorem tokenizeFuel_congr (g : GrammarTable) :
    ∀ f₁ f₂ (l : List Nat) (p : Nat), l.length ≤ f₁ → l.length ≤ f₂ →
      tokenizeFuel g f₁ l p = tokenizeFuel g f₂ l p
  | 0, f₂, l, p, h₁, _ => by
    have : l = [] := List.length_eq_zero.mp (Nat.le_zero.mp h₁)
    subst this
    cases f₂ <;> rfl
  | f₁ + 1, 0, l, p, _, h₂ => by
    have : l = [] := List.length_eq_zero.mp (Nat.le_zero.mp h₂)
    subst this; rfl
  | f₁ + 1, f₂ + 1, [], p, _, _ => rfl
  | f₁ + 1, f₂ + 1, b :: rest, p, h₁, h₂ => by
    have he := scan_extra_le g b rest
    have hd : (rest.drop (scanHead g b rest).2).length ≤ f₁ := by
      rw [List.length_drop]
      have : rest.length + 1 ≤ f₁ + 1 := by simpa using h₁
      omega
    have hd₂ : (rest.drop (scanHead g b rest).2).length ≤ f₂ := by
      rw [List.length_drop]
      have : rest.length + 1 ≤ f₂ + 1 := by simpa using h₂
      omega
    simp only [tokenizeFuel]
    rw [tokenizeFuel_congr g f₁ f₂ _ _ hd hd₂]

/-- One-step unfolding of `tokenizeAt` on a nonempty buffer. -/
theorem tokenizeAt_cons (g : GrammarTable) (b : Nat) (rest : List Nat) (p : Nat) :
    tokenizeAt g (b :: rest) p =
      ⟨(scanHead g b rest).1, p, p + 1 + (scanHead g b rest).2⟩ ::
        tokenizeAt g (rest.drop (scanHead g b rest).2) (p + 1 + (scanHead g b rest).2) := by
  have he := scan_extra_le g b rest
  show tokenizeFuel g (rest.length + 1) (b :: rest) p = _
  simp only [tokenizeFuel]
  rw [tokenizeFuel_congr g rest.length (rest.drop (scanHead g b rest).2).length _ _
    (by rw [List.length_drop]; omega) (le_refl _)]
  rfl

/-- Tokens produced by the scanner chain contiguously across the scanned
buffer: each token is nonempty, starts where its predecessor stopped, the
first starts at the scan position and the last stops at its end. -/
theorem tok_chain (g : GrammarTable) : ∀ (l : List Nat) (p : Nat),
    tchain p (tokenizeAt g l p) (p + l.length) = true
  | [], p => by simp [tokenizeAt, tokenizeFuel, tchain]
  | b :: rest, p => by
    rw [tokenizeAt_cons]
    have he := scan_extra_le g b rest
    have ih := tok_chain g (rest.drop (scanHead g b rest).2) (p + 1 + (scanHead g b rest).2)
    rw [List.length_drop] at ih
    have harith : p + 1 + (scanHead g b rest).2 + (rest.length - (scanHead g b rest).2)
        = p + (b :: rest).length := by
      simp only [List.length_cons]; omega
    rw [harith] at ih
    simp only [tchain, ih, Bool.and_true]
    simp only [decide_eq_true_eq, Bool.and_eq_true]
    exact ⟨trivial, by omega⟩
termination_by l _ => l.length
decreasing_by
  simp only [List.length_drop, List.length_cons]
  omega

/-- Identifier-continuation classification rejects the `;` byte. -/
theorem identCont_59 : grammarTable.identContB 59 = false := rfl

/-- Digit classification rejects the `;` byte. -/
theorem digit_59 : grammarTable.digitB 59 = false := rfl

/-- Whitespace classification rejects the `;` byte. -/
theorem ws_59 : grammarTable.wsB 59 = false := rfl

/-- A scan step whose remaining input still contains a `;` byte is unaffected
by bytes appended after the buffer: the maximal munch stops at or before the
semicolon. -/
theorem scanHead_append (b : Nat) {rest : List Nat} (m : List Nat)
    (h : 59 ∈ rest) : scanHead grammarTable b (rest ++ m) = scanHead grammarTable b rest := by
  unfold scanHead
  split_ifs <;>
    simp [takeWhile_app_stop _ m h identCont_59,
          takeWhile_app_stop _ m h digit_59,
          takeWhile_app_stop _ m h ws_59]

/-- A scan step whose remaining input still contains a `;` byte consumes
strictly less than that remaining input. -/
theorem scan_extra_lt (b : Nat) {rest : List Nat}
    (h : 59 ∈ rest) : (scanHead grammarTable b rest).2 < rest.length := by
  have hne : 0 < rest.length := List.length_pos.mpr (List.ne_nil_of_mem h)
  unfold scanHead
  split_ifs <;>
    simp [takeWhile_len_lt _ h identCont_59,
          takeWhile_len_lt _ h digit_59,
          takeWhile_len_lt _ h ws_59, hne]

/-- Scanner split property: a buffer ending on a `;` byte tokenizes
independently of whatever follows it; the token stream of the concatenation is
the concatenation of the token streams. -/
theorem tok_split : ∀ (l m : List Nat) (p : Nat), l.getLast? = some 59 →
    tokenizeAt grammarTable (l ++ m) p =
      tokenizeAt grammarTable l p ++ tokenizeAt grammarTable m (p + l.length)
  | [], _, _, h => by simp at h
  | [b], m, p, h => by
    have hb : b = 59 := by simpa using h
    subst hb
    rw [List.singleton_append, tokenizeAt_cons]
    have hs : scanHead grammarTable 59 m = (.semi, 0) := by
      unfold scanHead; rfl
    have hs0 : scanHead grammarTable 59 ([] : List Nat) = (.semi, 0) := by
      unfold scanHead; rfl
    rw [hs]
    show _ = tokenizeAt grammarTable [59] p ++ _
    rw [show ([59] : List Nat) = 59 :: [] from rfl, tokenizeAt_cons, hs0]
    simp [tokenizeAt, tokenizeFuel]
  | b :: c :: rest, m, p, h => by
    set rest' := c :: rest with hrest'
    have hlast : rest'.getLast? = some 59 := by
      exact List.getLast?_cons_cons ▸ h
    have hmem : 59 ∈ rest' := List.mem_of_mem_getLast? hlast
    have helt := scan_extra_lt b hmem
    have hele : (scanHead grammarTable b rest').2 ≤ rest'.length := le_of_lt helt
    rw [List.cons_append, tokenizeAt_cons, scanHead_append b m hmem,
      List.drop_append_of_le_length hele, tokenizeAt_cons]
    rw [tok_split (rest'.drop (scanHead grammarTable b rest').2) m
      (p + 1 + (scanHead grammarTable b rest').2) (getLast?_drop_of_lt helt ▸ hlast)]
    rw [List.length_drop]
    have harith : p + 1 + (scanHead grammarTable b rest').2 +
        (rest'.length - (scanHead grammarTable b rest').2) = p + (b :: rest').length := by
      simp only [List.length_cons]; omega
    rw [harith]
    simp
termination_by l _ _ _ => l.length
decreasing_by
  simp only [List.length_drop, List.length_cons]
  omega

/-- A buffer ending on a `;` byte tokenizes to a stream whose last token is
the single-byte `;` token at its end. -/
theorem tok_last_semi : ∀ (l : List Nat) (p : Nat), l.getLast? = some 59 →
    (tokenizeAt grammarTable l p).getLast? =
      some ⟨.semi, p + l.length - 1, p + l.length⟩
  | [], _, h => by simp at h
  | [b], p, h => by
    have hb : b = 59 := by simpa using h
    subst hb
    rw [show ([59] : List Nat) = 59 :: [] from rfl, tokenizeAt_cons]
    have hs0 : scanHead grammarTable 59 ([] : List Nat) = (.semi, 0) := by
      unfold scanHead; rfl
    rw [hs0]
    simp [tokenizeAt, tokenizeFuel]
  | b :: c :: rest, p, h => by
    set rest' := c :: rest with hrest'
    have hlast : rest'.getLast? = some 59 := by
      exact List.getLast?_cons_cons ▸ h
    have hmem : 59 ∈ rest' := List.mem_of_mem_getLast? hlast
    have helt := scan_extra_lt b hmem
    rw [tokenizeAt_cons]
    have hdlen : 0 < (rest'.drop (scanHead grammarTable b rest').2).length := by
      rw [List.length_drop]; omega
    obtain ⟨d, ds, hds⟩ :=
      List.exists_cons_of_ne_nil (List.ne_nil_of_length_pos hdlen)
    have ih := tok_last_semi (rest'.drop (scanHead grammarTable b rest').2)
      (p + 1 + (scanHead grammarTable b rest').2) (getLast?_drop_of_lt helt ▸ hlast)
    rw [List.length_drop] at ih
    have harith : p + 1 + (scanHead grammarTable b rest').2 +
        (rest'.length - (scanHead grammarTable b rest').2) = p + (b :: rest').length := by
      simp only [List.length_cons]; omega
    rw [harith] at ih
    rw [hds, tokenizeAt_cons] at ih ⊢
    rw [List.getLast?_cons_cons]
    exact ih
termination_by l _ _ => l.length
decreasing_by
  simp only [List.length_drop, List.length_cons]
  omega

/-- A scan step yields a `;` token only on an actual `;` byte, and then the
token is a single byte. -/
theorem scanHead_semi (b : Nat) (rest : List Nat)
    (h : (scanHead grammarTable b rest).1 = Kind.semi) :
    b = 59 ∧ (scanHead grammarTable b rest).2 = 0 := by
  revert h
  unfold scanHead
  split_ifs <;> simp_all

/-- Soundness of `;` tokens: every `;` token the scanner emits is a single
byte wide and sits on an actual `;` byte of the scanned buffer. -/
theorem tok_semi_byte : ∀ (l : List Nat) (p : Nat) (t : Token),
    t ∈ tokenizeAt grammarTable l p → t.kind = .semi →
    t.stop = t.start + 1 ∧ p ≤ t.start ∧ l[t.start - p]? = some 59
  | [], p, t, hmem, _ => by simp [tokenizeAt, tokenizeFuel] at hmem
  | b :: rest, p, t, hmem, hk => by
    rw [tokenizeAt_cons] at hmem
    rcases List.mem_cons.mp hmem with hhead | htail
    · subst hhead
      obtain ⟨hb, he⟩ := scanHead_semi b rest hk
      subst hb
      rw [he]
      exact ⟨rfl, le_refl _, by simp⟩
    · have ih := tok_semi_byte (rest.drop (scanHead grammarTable b rest).2)
        (p + 1 + (scanHead grammarTable b rest).2) t htail hk
      obtain ⟨hw, hle, hget⟩ := ih
      rw [List.getElem?_drop] at hget
      refine ⟨hw, by omega, ?_⟩
      have hidx : t.start - p = ((scanHead grammarTable b rest).2 + (t.start - (p + 1 + (scanHead grammarTable b rest).2))) + 1 := by
        omega
      rw [hidx]
      simpa using hget
termination_by l _ _ _ _ => l.length
decreasing_by
  simp only [List.length_drop, List.length_cons]
  have := scan_extra_le grammarTable b rest
  omega

/-- The statement parser only ever leaves behind a tail of its input. -/
theorem parseStmt_rest_drop (t : Token) (ts : List Token) :
    ∃ k, (parseStmt t ts).2 = ts.drop k := by
  unfold parseStmt
  rcases ts with _ | ⟨lp, ts1⟩
  · exact ⟨0, rfl⟩
  by_cases klp : lp.kind = .lparen
  · rcases ts1 with _ | ⟨num, ts2⟩
    · exact ⟨1, by simp [klp]⟩
    by_cases knum : num.kind = .number
    · rcases ts2 with _ | ⟨rp, ts3⟩
      · exact ⟨2, by simp [klp, knum]⟩
      by_cases krp : rp.kind = .rparen
      · rcases ts3 with _ | ⟨sm, ts4⟩
        · exact ⟨3, by simp [klp, knum, krp]⟩
        by_cases ksm : sm.kind = .semi
        · exact ⟨4, by simp [klp, knum, krp, ksm]⟩
        · exact ⟨3, by simp [klp, knum, krp, ksm]⟩
      · exact ⟨2, by simp [klp, knum, krp]⟩
    · exact ⟨1, by simp [klp, knum]⟩
  · exact ⟨0, by simp [klp]⟩

/-- The statement parser never lengthens the remaining input. -/
theorem parseStmt_rest_le (t : Token) (ts : List Token) :
    (parseStmt t ts).2.length ≤ ts.length := by
  obtain ⟨k, hk⟩ := parseStmt_rest_drop t ts
  rw [hk, List.length_drop]
  omega

/-- Fuel irrelevance for the top-level parse loop. -/
theorem parseTopFuel_congr : ∀ f₁ f₂ (ts : List Token), ts.length ≤ f₁ → ts.length ≤ f₂ →
    parseTopFuel f₁ ts = parseTopFuel f₂ ts
  | 0, f₂, ts, h₁, _ => by
    have : ts = [] := List.length_eq_zero.mp (Nat.le_zero.mp h₁)
    subst this
    cases f₂ <;> rfl
  | f₁ + 1, 0, ts, _, h₂ => by
    have : ts = [] := List.length_eq_zero.mp (Nat.le_zero.mp h₂)
    subst this; rfl
  | f₁ + 1, f₂ + 1, [], _, _ => rfl
  | f₁ + 1, f₂ + 1, t :: ts, h₁, h₂ => by
    have hr := parseStmt_rest_le t ts
    have hts₁ : ts.length ≤ f₁ := by simpa using Nat.lt_succ_iff.mp (Nat.lt_of_lt_of_le (Nat.lt_succ_self _) (by simpa using h₁))
    have hts₂ : ts.length ≤ f₂ := by simpa using Nat.lt_succ_iff.mp (Nat.lt_of_lt_of_le (Nat.lt_succ_self _) (by simpa using h₂))
    simp only [parseTopFuel]
    split_ifs
    · rw [parseTopFuel_congr f₁ f₂ ts hts₁ hts₂]
    · rw [parseTopFuel_congr f₁ f₂ (parseStmt t ts).2 (le_trans hr hts₁) (le_trans hr hts₂)]
    · rw [parseTopFuel_congr f₁ f₂ ts hts₁ hts₂]

/-- One-step unfolding of the top-level parse loop. -/
theorem parseTop_cons (t : Token) (ts : List Token) :
    parseTop (t :: ts) =
      if t.kind = .whitespace then leafOf t :: parseTop ts
      else if t.kind = .ident then (parseStmt t ts).1 :: parseTop (parseStmt t ts).2
      else SNode.node .errorNode ⟨t.start, t.stop⟩ [leafOf t] :: parseTop ts := by
  show parseTopFuel (ts.length + 1) (t :: ts) = _
  simp only [parseTopFuel]
  split_ifs
  · rfl
  · rw [parseTopFuel_congr ts.length (parseStmt t ts).2.length _
      (parseStmt_rest_le t ts) (le_refl _)]
    rfl
  · rfl

/-- The empty token stream parses to no children. -/
theorem parseTop_nil : parseTop [] = [] := rfl

/-- The statement parser never looks past a chunk that ends with a `;`
token: appending further tokens changes neither the produced node nor the
position where parsing resumes. -/
theorem parseStmt_append (t : Token) (ts us : List Token) (sm : Token)
    (hlast : ts.getLast? = some sm) (hsemi : sm.kind = .semi) :
    parseStmt t (ts ++ us) = ((parseStmt t ts).1, (parseStmt t ts).2 ++ us) := by
  rcases ts with _ | ⟨lp, ts1⟩
  · simp at hlast
  by_cases klp : lp.kind = .lparen
  · rcases ts1 with _ | ⟨num, ts2⟩
    · have hsm : lp = sm := by simpa using hlast
      subst hsm
      rw [klp] at hsemi
      simp at hsemi
    have hlast1 : (num :: ts2).getLast? = some sm := by
      exact List.getLast?_cons_cons ▸ hlast
    by_cases knum : num.kind = .number
    · rcases ts2 with _ | ⟨rp, ts3⟩
      · have hsm : num = sm := by simpa using hlast1
        subst hsm
        rw [knum] at hsemi
        simp at hsemi
      have hlast2 : (rp :: ts3).getLast? = some sm := by
        exact List.getLast?_cons_cons ▸ hlast1
      by_cases krp : rp.kind = .rparen
      · rcases ts3 with _ | ⟨sm2, ts4⟩
        · have hsm : rp = sm := by simpa using hlast2
          subst hsm
          rw [krp] at hsemi
          simp at hsemi
        by_cases ksm : sm2.kind = .semi
        · simp [parseStmt, klp, knum, krp, ksm]
        · simp [parseStmt, klp, knum, krp, ksm]
      · simp [parseStmt, klp, knum, krp]
    · simp [parseStmt, klp, knum]
  · simp [parseStmt, klp]

/-- Such a token appears in a chunk ending with a `;` token, so nonemptiness
of the tail chunk is preserved along the top-level loop. -/
theorem getLast?_drop_tok {ts : List Token} {sm : Token} {k : Nat}
    (h : ts.getLast? = some sm) (hne : ts.drop k ≠ []) :
    (ts.drop k).getLast? = some sm := by
  have hk : k < ts.length := by
    by_contra hk
    push_neg at hk
    rw [List.drop_eq_nil_of_le hk] at hne
    exact hne rfl
  rw [getLast?_drop_of_lt hk, h]

/-- Top-level split property: a token chunk ending with a `;` token parses
independently of whatever tokens follow it. -/
theorem parseTop_split : ∀ (ts us : List Token) (sm : Token),
    ts.getLast? = some sm → sm.kind = .semi →
    parseTop (ts ++ us) = parseTop ts ++ parseTop us
  | [], _, _, hlast, _ => by simp at hlast
  | [t], us, sm, hlast, hsemi => by
    have hk : t.kind = .semi := by
      have ht : t = sm := by simpa using hlast
      rw [ht]; exact hsemi
    rw [List.singleton_append, parseTop_cons,
      show ([t] : List Token) = t :: [] from rfl, parseTop_cons]
    rw [hk]
    simp [parseTop_nil]
  | t :: t2 :: ts'', us, sm, hlast, hsemi => by
    have hlast' : (t2 :: ts'').getLast? = some sm := by
      exact List.getLast?_cons_cons ▸ hlast
    rw [List.cons_append, parseTop_cons, parseTop_cons t (t2 :: ts'')]
    by_cases kws : t.kind = .whitespace
    · rw [if_pos kws, if_pos kws,
        parseTop_split (t2 :: ts'') us sm hlast' hsemi]
      simp
    · by_cases kid : t.kind = .ident
      · rw [if_neg kws, if_pos kid, if_neg kws, if_pos kid,
          parseStmt_append t (t2 :: ts'') us sm hlast' hsemi]
        by_cases hrest : (parseStmt t (t2 :: ts'')).2 = []
        · rw [hrest]
          simp [parseTop_nil]
        · obtain ⟨k, hkdrop⟩ := parseStmt_rest_drop t (t2 :: ts'')
          have hlast'' : ((parseStmt t (t2 :: ts'')).2).getLast? = some sm := by
            rw [hkdrop] at hrest ⊢
            exact getLast?_drop_tok hlast' hrest
          rw [parseTop_split (parseStmt t (t2 :: ts'')).2 us sm hlast'' hsemi]
          simp
      · rw [if_neg kws, if_neg kid, if_neg kws, if_neg kid,
          parseTop_split (t2 :: ts'') us sm hlast' hsemi]
        simp
termination_by ts _ _ _ _ => ts.length
decreasing_by
  · simp
  · have := parseStmt_rest_le t (t2 :: ts'')
    simp only [List.length_cons] at this ⊢
    omega
  · simp

mutual
/-- A well-formed node has a well-ordered byte range. -/
theorem nodeWf_le : ∀ (n : SNode), nodeWf n = true → (rangeOf n).start ≤ (rangeOf n).stop
  | .leaf k r, h => by simpa [nodeWf, rangeOf] using h
  | .node k r cs, h => by
    have := childrenWf_le r.start cs r.stop (by simpa [nodeWf] using h)
    simpa [rangeOf] using this

/-- A well-formed child chain runs forward. -/
theorem childrenWf_le : ∀ (p : Nat) (cs : List SNode) (q : Nat),
    childrenWf p cs q = true → p ≤ q
  | p, [], q, h => by
    have : p = q := by simpa [childrenWf] using h
    omega
  | p, c :: cs, q, h => by
    simp only [childrenWf, Bool.and_eq_true, decide_eq_true_eq] at h
    obtain ⟨⟨hstart, hwf⟩, hrest⟩ := h
    have h1 := nodeWf_le c hwf
    have h2 := childrenWf_le (rangeOf c).stop cs q hrest
    omega
end

/-- Every member of a well-formed child chain is well-formed and stops at or
before the chain's end. -/
theorem childrenWf_mem : ∀ (p : Nat) (cs : List SNode) (q : Nat),
    childrenWf p cs q = true → ∀ c ∈ cs, nodeWf c = true ∧ (rangeOf c).stop ≤ q
  | _, [], _, _, c, hc => absurd hc (by simp)
  | p, c0 :: cs, q, h, c, hc => by
    simp only [childrenWf, Bool.and_eq_true, decide_eq_true_eq] at h
    obtain ⟨⟨hstart, hwf⟩, hrest⟩ := h
    rcases List.mem_cons.mp hc with rfl | hmem
    · exact ⟨hwf, childrenWf_le (rangeOf c).stop cs q hrest⟩
    · exact childrenWf_mem (rangeOf c0).stop cs q hrest c hmem

/-- Every member of a semicolon-sound child list is semicolon-sound. -/
theorem semiByteOkL_mem (src : List Nat) : ∀ (cs : List SNode),
    semiByteOkL src cs = true → ∀ c ∈ cs, semiByteOk src c = true
  | [], _, c, hc => absurd hc (by simp)
  | c0 :: cs, h, c, hc => by
    simp only [semiByteOkL, Bool.and_eq_true] at h
    rcases List.mem_cons.mp hc with rfl | hmem
    · exact h.1
    · exact semiByteOkL_mem src cs h.2 c hmem

/-- Concatenation of partition chains. -/
theorem chainR_append : ∀ (xs : List Range) (p m q : Nat) (ys : List Range),
    chainR p xs m = true → chainR m ys q = true → chainR p (xs ++ ys) q = true
  | [], p, m, q, ys, h1, h2 => by
    have : p = m := by simpa [chainR] using h1
    subst this
    simpa using h2
  | x :: xs, p, m, q, ys, h1, h2 => by
    simp only [chainR, Bool.and_eq_true, decide_eq_true_eq] at h1 ⊢
    exact ⟨⟨h1.1.1, h1.1.2⟩, chainR_append xs x.stop m q ys h1.2 h2⟩

mutual
/-- The leaf ranges of a well-formed node partition its byte range exactly. -/
theorem leafRanges_chain : ∀ (n : SNode), nodeWf n = true →
    chainR (rangeOf n).start (leafRanges n) (rangeOf n).stop = true
  | .leaf k r, h => by
    have : r.start ≤ r.stop := by simpa [nodeWf] using h
    simp [leafRanges, chainR, rangeOf, this]
  | .node k r cs, h => by
    have := leafRangesL_chain r.start cs r.stop (by simpa [nodeWf] using h)
    simpa [leafRanges, rangeOf] using this

/-- The leaf ranges of a well-formed child chain partition its span exactly. -/
theorem leafRangesL_chain : ∀ (p : Nat) (cs : List SNode) (q : Nat),
    childrenWf p cs q = true → chainR p (leafRangesL cs) q = true
  | p, [], q, h => by simpa [childrenWf, leafRangesL, chainR] using h
  | p, c :: cs, q, h => by
    simp only [childrenWf, Bool.and_eq_true, decide_eq_true_eq] at h
    obtain ⟨⟨hstart, hwf⟩, hrest⟩ := h
    have h1 := leafRanges_chain c hwf
    rw [hstart] at h1
    have h2 := leafRangesL_chain (rangeOf c).stop cs q hrest
    simpa [leafRangesL] using chainR_append (leafRanges c) p (rangeOf c).stop q (leafRangesL cs) h1 h2
end

mutual
/-- A well-formed, semicolon-sound node whose rightmost leaf is a `;` token
ends just after an actual `;` byte of the source. -/
theorem lastLeaf_semi_byte : ∀ (src : List Nat) (n : SNode),
    nodeWf n = true → semiByteOk src n = true → (lastLeafKR n).1 = Kind.semi →
    ∃ s, (rangeOf n).stop = s + 1 ∧ src[s]? = some 59
  | src, .leaf k r, hwf, hsb, hlk => by
    have hk : k = Kind.semi := by simpa [lastLeafKR] using hlk
    subst hk
    have hsb' : r.stop = r.start + 1 ∧ src[r.start]? = some 59 := by
      simpa [semiByteOk] using hsb
    exact ⟨r.start, by simp [rangeOf, hsb'.1], hsb'.2⟩
  | src, .node k r [], hwf, hsb, hlk => by
    simp [lastLeafKR, lastLeafKRL] at hlk
  | src, .node k r (c :: cs), hwf, hsb, hlk => by
    have hwf' : childrenWf r.start (c :: cs) r.stop = true := by simpa [nodeWf] using hwf
    have hsb' : semiByteOkL src (c :: cs) = true := by simpa [semiByteOk] using hsb
    have hlk' : (lastLeafKRL (Kind.missing, r) (c :: cs)).1 = Kind.semi := by
      simpa [lastLeafKR] using hlk
    have := lastLeafL_semi_byte src (c :: cs) (Kind.missing, r) r.start r.stop
      hwf' hsb' hlk'
    simpa [rangeOf] using this

/-- List form of `lastLeaf_semi_byte`. -/
theorem lastLeafL_semi_byte : ∀ (src : List Nat) (cs : List SNode) (d : Kind × Range) (p q : Nat),
    childrenWf p cs q = true → semiByteOkL src cs = true →
    (lastLeafKRL d cs).1 = Kind.semi →
    cs ≠ [] →
    ∃ s, q = s + 1 ∧ src[s]? = some 59
  | _, [], _, _, _, _, _, _, hne => absurd rfl hne
  | src, [c], d, p, q, hwf, hsb, hlk, _ => by
    simp only [childrenWf, Bool.and_eq_true, decide_eq_true_eq] at hwf
    obtain ⟨⟨hstart, hcwf⟩, hrest⟩ := hwf
    have hq : (rangeOf c).stop = q := by simpa [childrenWf] using hrest
    have hsb' : semiByteOk src c = true := by
      simpa [semiByteOkL] using hsb
    have hlk' : (lastLeafKR c).1 = Kind.semi := by
      simpa [lastLeafKRL] using hlk
    obtain ⟨s, hs, hb⟩ := lastLeaf_semi_byte src c hcwf hsb' hlk'
    exact ⟨s, by omega, hb⟩
  | src, c :: c2 :: cs, d, p, q, hwf, hsb, hlk, _ => by
    simp only [childrenWf, Bool.and_eq_true, decide_eq_true_eq] at hwf
    obtain ⟨⟨hstart, hcwf⟩, ⟨⟨hstart2, hcwf2⟩, hrest2⟩⟩ := hwf
    have hrest : childrenWf (rangeOf c).stop (c2 :: cs) q = true := by
      simp only [childrenWf, Bool.and_eq_true, decide_eq_true_eq]
      exact ⟨⟨hstart2, hcwf2⟩, hrest2⟩
    have hsb' : semiByteOkL src (c2 :: cs) = true := by
      simp only [semiByteOkL, Bool.and_eq_true] at hsb ⊢
      exact hsb.2
    have hlk' : (lastLeafKRL (lastLeafKR c) (c2 :: cs)).1 = Kind.semi := by
      simpa [lastLeafKRL] using hlk
    exact lastLeafL_semi_byte src (c2 :: cs) (lastLeafKR c) (rangeOf c).stop q
      hrest hsb' hlk' (by simp)
end

/-- Unfolding step for token chains. -/
theorem tchain_cons {p q : Nat} {t : Token} {ts : List Token}
    (h : tchain p (t :: ts) q = true) :
    t.start = p ∧ t.start < t.stop ∧ tchain t.stop ts q = true := by
  simp only [tchain, Bool.and_eq_true, decide_eq_true_eq] at h
  exact ⟨h.1.1, h.1.2, h.2⟩

/-- Terminal step for token chains. -/
theorem tchain_nil {p q : Nat} (h : tchain p ([] : List Token) q = true) : p = q := by
  simpa [tchain] using h

/-- Rebuilding step for token chains. -/
theorem tchain_cons_mk {p q : Nat} {t : Token} {ts : List Token}
    (h1 : t.start = p) (h2 : t.start < t.stop) (h3 : tchain t.stop ts q = true) :
    tchain p (t :: ts) q = true := by
  simp only [tchain, Bool.and_eq_true, decide_eq_true_eq]
  exact ⟨⟨h1, h2⟩, h3⟩

/-- A token leaf is semicolon-sound whenever the token itself is. -/
theorem semiByteOk_leafOf (src : List Nat) (tok : Token)
    (h : tok.kind = .semi → tok.stop = tok.start + 1 ∧ src[tok.start]? = some 59) :
    semiByteOk src (leafOf tok) = true := by
  simp only [leafOf, semiByteOk]
  by_cases hk : tok.kind = .semi
  · simp [hk, (h hk).1, (h hk).2]
  · simp [hk]

/-- Propositional form of `semiByteOk` on an interior node. -/
theorem semiByteOk_node_iff (src : List Nat) (k : Kind) (r : Range) (cs : List SNode) :
    semiByteOk src (.node k r cs) = true ↔ semiByteOkL src cs = true := by
  simp [semiByteOk]

/-- Propositional form of `semiByteOkL` on a cons cell. -/
theorem semiByteOkL_cons_iff (src : List Nat) (c : SNode) (cs : List SNode) :
    semiByteOkL src (c :: cs) = true ↔
      (semiByteOk src c = true ∧ semiByteOkL src cs = true) := by
  simp [semiByteOkL]

/-- Empty child lists are semicolon-sound. -/
theorem semiByteOkL_nil (src : List Nat) : semiByteOkL src [] = true := rfl

/-- Zero-width `missing` error markers are semicolon-sound. -/
theorem semiByteOk_missing (src : List Nat) (r : Range) :
    semiByteOk src (.leaf .missing r) = true := by
  simp [semiByteOk]

/-- Specification of the statement parser: on a chained token stream it
produces a well-formed, semicolon-sound node that starts at the leading
token, spans a nonempty range up to where parsing resumes, and leaves a
chained remainder. -/
theorem parseStmt_spec (src : List Nat) (t : Token) (ts : List Token) (q : Nat)
    (hts : t.start < t.stop)
    (hch : tchain t.stop ts q = true)
    (hsb : ∀ tok ∈ t :: ts, tok.kind = .semi →
      tok.stop = tok.start + 1 ∧ src[tok.start]? = some 59) :
    ∃ r, rangeOf (parseStmt t ts).1 = ⟨t.start, r⟩ ∧
      nodeWf (parseStmt t ts).1 = true ∧
      t.start < r ∧
      semiByteOk src (parseStmt t ts).1 = true ∧
      tchain r (parseStmt t ts).2 q = true := by
  have sbt := semiByteOk_leafOf src t (hsb t (by simp))
  rcases ts with _ | ⟨lp, ts1⟩
  · -- no tokens left: lone error node
    have hq := tchain_nil hch
    have hps : parseStmt t [] =
        (.node .errorNode ⟨t.start, t.stop⟩ [leafOf t], []) := rfl
    simp only [hps]
    refine ⟨t.stop, by simp [rangeOf], ?_, hts, ?_, by simp [tchain, hq]⟩
    · simp only [nodeWf, childrenWf, leafOf, rangeOf,
        Bool.and_eq_true, decide_eq_true_eq, true_and, and_true]
      omega
    · simp only [semiByteOk_node_iff, semiByteOkL_cons_iff, semiByteOkL_nil, sbt]
      simp
  obtain ⟨hlp1, hlp2, hch1⟩ := tchain_cons hch
  have sblp := semiByteOk_leafOf src lp (hsb lp (by simp))
  by_cases klp : lp.kind = .lparen
  · rcases ts1 with _ | ⟨num, ts2⟩
    · -- an identifier and `(` at end of input
      have hq := tchain_nil hch1
      have hps : parseStmt t [lp] = (brokenAfterLp t lp, []) := by
        unfold parseStmt; simp [klp]
      simp only [hps]
      refine ⟨lp.stop, by simp [brokenAfterLp, rangeOf], ?_, by omega, ?_,
        by simp [tchain, hq]⟩
      · simp only [brokenAfterLp, nodeWf, childrenWf, leafOf, rangeOf,
          Bool.and_eq_true, decide_eq_true_eq, true_and, and_true]
        omega
      · simp only [brokenAfterLp, semiByteOk_node_iff, semiByteOkL_cons_iff,
          semiByteOkL_nil, semiByteOk_missing, sbt, sblp]
        simp
    obtain ⟨hnum1, hnum2, hch2⟩ := tchain_cons hch1
    have sbnum := semiByteOk_leafOf src num (hsb num (by simp))
    by_cases knum : num.kind = .number
    · rcases ts2 with _ | ⟨rp, ts3⟩
      · -- `( number` at end of input
        have hq := tchain_nil hch2
        have hps : parseStmt t [lp, num] = (brokenAfterNum t lp num, []) := by
          unfold parseStmt; simp [klp, knum]
        simp only [hps]
        refine ⟨num.stop, by simp [brokenAfterNum, rangeOf], ?_, by omega, ?_,
          by simp [tchain, hq]⟩
        · simp only [brokenAfterNum, nodeWf, childrenWf, leafOf, rangeOf,
            Bool.and_eq_true, decide_eq_true_eq, true_and, and_true]
          omega
        · simp only [brokenAfterNum, semiByteOk_node_iff, semiByteOkL_cons_iff,
            semiByteOkL_nil, semiByteOk_missing, sbt, sblp, sbnum]
          simp
      obtain ⟨hrp1, hrp2, hch3⟩ := tchain_cons hch2
      have sbrp := semiByteOk_leafOf src rp (hsb rp (by simp))
      by_cases krp : rp.kind = .rparen
      · rcases ts3 with _ | ⟨sm, ts4⟩
        · -- `( number )` at end of input: missing `;`
          have hq := tchain_nil hch3
          have hps : parseStmt t [lp, num, rp] =
              (.node .statement ⟨t.start, rp.stop⟩
                [.node .call ⟨t.start, rp.stop⟩
                  [leafOf t, leafOf lp, leafOf num, leafOf rp],
                 .leaf .missing ⟨rp.stop, rp.stop⟩], []) := by
            unfold parseStmt; simp [klp, knum, krp]
          simp only [hps]
          refine ⟨rp.stop, by simp [rangeOf], ?_, by omega, ?_,
            by simp [tchain, hq]⟩
          · simp only [nodeWf, childrenWf, leafOf, rangeOf,
              Bool.and_eq_true, decide_eq_true_eq, true_and, and_true]
            omega
          · simp only [semiByteOk_node_iff, semiByteOkL_cons_iff, semiByteOkL_nil,
              semiByteOk_missing, sbt, sblp, sbnum, sbrp]
            simp
        obtain ⟨hsm1, hsm2, hch4⟩ := tchain_cons hch3
        have sbsm := semiByteOk_leafOf src sm (hsb sm (by simp))
        by_cases ksm : sm.kind = .semi
        · -- complete statement
          have hps : parseStmt t (lp :: num :: rp :: sm :: ts4) =
              (.node .statement ⟨t.start, sm.stop⟩
                [.node .call ⟨t.start, rp.stop⟩
                  [leafOf t, leafOf lp, leafOf num, leafOf rp],
                 leafOf sm], ts4) := by
            unfold parseStmt; simp [klp, knum, krp, ksm]
          simp only [hps]
          refine ⟨sm.stop, by simp [rangeOf], ?_, by omega, ?_, hch4⟩
          · simp only [nodeWf, childrenWf, leafOf, rangeOf,
              Bool.and_eq_true, decide_eq_true_eq, true_and, and_true]
            omega
          · simp only [semiByteOk_node_iff, semiByteOkL_cons_iff, semiByteOkL_nil,
              sbt, sblp, sbnum, sbrp, sbsm]
            simp
        · -- missing `;` before a further token
          have hps : parseStmt t (lp :: num :: rp :: sm :: ts4) =
              (.node .statement ⟨t.start, rp.stop⟩
                [.node .call ⟨t.start, rp.stop⟩
                  [leafOf t, leafOf lp, leafOf num, leafOf rp],
                 .leaf .missing ⟨rp.stop, rp.stop⟩], sm :: ts4) := by
            unfold parseStmt; simp [klp, knum, krp, ksm]
          simp only [hps]
          refine ⟨rp.stop, by simp [rangeOf], ?_, by omega, ?_,
            tchain_cons_mk (by omega) hsm2 hch4⟩
          · simp only [nodeWf, childrenWf, leafOf, rangeOf,
              Bool.and_eq_true, decide_eq_true_eq, true_and, and_true]
            omega
          · simp only [semiByteOk_node_iff, semiByteOkL_cons_iff, semiByteOkL_nil,
              semiByteOk_missing, sbt, sblp, sbnum, sbrp]
            simp
      · -- missing `)` before a further token
        have hps : parseStmt t (lp :: num :: rp :: ts3) =
            (brokenAfterNum t lp num, rp :: ts3) := by
          unfold parseStmt; simp [klp, knum, krp]
        simp only [hps]
        refine ⟨num.stop, by simp [brokenAfterNum, rangeOf], ?_, by omega, ?_,
          tchain_cons_mk (by omega) hrp2 hch3⟩
        · simp only [brokenAfterNum, nodeWf, childrenWf, leafOf, rangeOf,
            Bool.and_eq_true, decide_eq_true_eq, true_and, and_true]
          omega
        · simp only [brokenAfterNum, semiByteOk_node_iff, semiByteOkL_cons_iff,
            semiByteOkL_nil, semiByteOk_missing, sbt, sblp, sbnum]
          simp
    · -- no numeric argument after `(`
      have hps : parseStmt t (lp :: num :: ts2) =
          (brokenAfterLp t lp, num :: ts2) := by
        unfold parseStmt; simp [klp, knum]
      simp only [hps]
      refine ⟨lp.stop, by simp [brokenAfterLp, rangeOf], ?_, by omega, ?_,
        tchain_cons_mk (by omega) hnum2 hch2⟩
      · simp only [brokenAfterLp, nodeWf, childrenWf, leafOf, rangeOf,
          Bool.and_eq_true, decide_eq_true_eq, true_and, and_true]
        omega
      · simp only [brokenAfterLp, semiByteOk_node_iff, semiByteOkL_cons_iff,
          semiByteOkL_nil, semiByteOk_missing, sbt, sblp]
        simp
  · -- no `(` after the identifier: lone error node
    have hps : parseStmt t (lp :: ts1) =
        (.node .errorNode ⟨t.start, t.stop⟩ [leafOf t], lp :: ts1) := by
      unfold parseStmt; simp [klp]
    simp only [hps]
    refine ⟨t.stop, by simp [rangeOf], ?_, hts, ?_,
      tchain_cons_mk (by omega) hlp2 hch1⟩
    · simp only [nodeWf, childrenWf, leafOf, rangeOf,
        Bool.and_eq_true, decide_eq_true_eq, true_and, and_true]
      omega
    · simp only [semiByteOk_node_iff, semiByteOkL_cons_iff, semiByteOkL_nil, sbt]
      simp

/-- Specification of the top-level parse loop: a chained token stream parses
to a well-formed, semicolon-sound child chain spanning the same range, whose
children all cover at least one byte. -/
theorem parseTop_spec (src : List Nat) : ∀ (ts : List Token) (p q : Nat),
    tchain p ts q = true →
    (∀ tok ∈ ts, tok.kind = .semi → tok.stop = tok.start + 1 ∧ src[tok.start]? = some 59) →
    childrenWf p (parseTop ts) q = true ∧
    semiByteOkL src (parseTop ts) = true ∧
    ∀ c ∈ parseTop ts, (rangeOf c).start < (rangeOf c).stop
  | [], p, q, hch, _ => by
    have hq := tchain_nil hch
    refine ⟨by simp [parseTop_nil, childrenWf, hq], by simp [parseTop_nil, semiByteOkL], ?_⟩
    intro c hc
    simp [parseTop_nil] at hc
  | t :: ts, p, q, hch, hsb => by
    obtain ⟨ht1, ht2, hch'⟩ := tchain_cons hch
    rw [parseTop_cons]
    by_cases kws : t.kind = .whitespace
    · rw [if_pos kws]
      obtain ⟨ih1, ih2, ih3⟩ := parseTop_spec src ts t.stop q hch'
        (fun tok h => hsb tok (by simp [h]))
      refine ⟨?_, ?_, ?_⟩
      · simp only [childrenWf, leafOf, rangeOf, nodeWf, Bool.and_eq_true,
          decide_eq_true_eq]
        exact ⟨⟨ht1, by omega⟩, ih1⟩
      · exact (semiByteOkL_cons_iff src _ _).mpr
          ⟨semiByteOk_leafOf src t (hsb t (by simp)), ih2⟩
      · intro c hc
        rcases List.mem_cons.mp hc with rfl | hm
        · simpa [leafOf, rangeOf] using ht2
        · exact ih3 c hm
    · by_cases kid : t.kind = .ident
      · rw [if_neg kws, if_pos kid]
        obtain ⟨r, hr1, hr2, hr3, hr4, hr5⟩ := parseStmt_spec src t ts q ht2 hch' hsb
        obtain ⟨k, hk⟩ := parseStmt_rest_drop t ts
        have hsbrest : ∀ tok ∈ (parseStmt t ts).2, tok.kind = .semi →
            tok.stop = tok.start + 1 ∧ src[tok.start]? = some 59 := by
          intro tok hm
          exact hsb tok (by
            rw [hk] at hm
            exact List.mem_cons_of_mem t (List.drop_subset k ts hm))
        obtain ⟨ih1, ih2, ih3⟩ := parseTop_spec src (parseStmt t ts).2 r q hr5 hsbrest
        refine ⟨?_, ?_, ?_⟩
        · simp only [childrenWf, Bool.and_eq_true, decide_eq_true_eq, hr1]
          exact ⟨⟨ht1, hr2⟩, ih1⟩
        · exact (semiByteOkL_cons_iff src _ _).mpr ⟨hr4, ih2⟩
        · intro c hc
          rcases List.mem_cons.mp hc with rfl | hm
          · rw [hr1]
            exact hr3
          · exact ih3 c hm
      · rw [if_neg kws, if_neg kid]
        obtain ⟨ih1, ih2, ih3⟩ := parseTop_spec src ts t.stop q hch'
          (fun tok h => hsb tok (by simp [h]))
        refine ⟨?_, ?_, ?_⟩
        · simp only [childrenWf, leafOf, rangeOf, nodeWf, Bool.and_eq_true,
            decide_eq_true_eq, true_and, and_true]
          exact ⟨⟨ht1, by omega⟩, ih1⟩
        · refine (semiByteOkL_cons_iff src _ _).mpr ⟨?_, ih2⟩
          refine (semiByteOk_node_iff src _ _ _).mpr ?_
          exact (semiByteOkL_cons_iff src _ _).mpr
            ⟨semiByteOk_leafOf src t (hsb t (by simp)), semiByteOkL_nil src⟩
        · intro c hc
          rcases List.mem_cons.mp hc with rfl | hm
          · simpa [rangeOf] using ht2
          · exact ih3 c hm
termination_by ts _ _ _ _ => ts.length
decreasing_by
  · simp
  · have := parseStmt_rest_le t ts
    simp only [List.length_cons]
    omega
  · simp

/-- Tokens of a full-buffer scan satisfy the semicolon-byte soundness
hypothesis of the parser specification. -/
theorem tok_semi_src (src : List Nat) :
    ∀ tok ∈ tokenizeAt grammarTable src 0, tok.kind = .semi →
      tok.stop = tok.start + 1 ∧ src[tok.start]? = some 59 := by
  intro tok hm hk
  obtain ⟨h1, _, h3⟩ := tok_semi_byte src 0 tok hm hk
  constructor
  · exact h1
  · simpa using h3

/-- Combined invariants of the children of a full parse: they chain across
the whole input, are semicolon-sound, and each covers at least one byte. -/
theorem parse_children_spec (src : List Nat) :
    childrenWf 0 (parseTop (tokenizeAt grammarTable src 0)) src.length = true ∧
    semiByteOkL src (parseTop (tokenizeAt grammarTable src 0)) = true ∧
    ∀ c ∈ parseTop (tokenizeAt grammarTable src 0),
      (rangeOf c).start < (rangeOf c).stop := by
  have hch := tok_chain grammarTable src 0
  rw [Nat.zero_add] at hch
  exact parseTop_spec src _ 0 src.length hch (tok_semi_src src)

/-- Every parse result is a well-formed tree. -/
theorem parse_wf_aux (src : List Nat) : nodeWf (parse src) = true := by
  have h := (parse_children_spec src).1
  show nodeWf (SNode.node .sourceFile ⟨0, src.length⟩
    (parseTop (tokenizeAt grammarTable src 0))) = true
  simp only [nodeWf]
  exact h

/-- Appending past a prefix that wholly satisfies the test leaves the prefix
inside the `takeWhile`. -/
theorem takeWhile_app_all {α : Type} (p : α → Bool) : ∀ (A B : List α),
    (∀ a ∈ A, p a = true) → (A ++ B).takeWhile p = A ++ B.takeWhile p
  | [], B, _ => by simp
  | a :: A, B, h => by
    rw [List.cons_append, List.takeWhile_cons_of_pos (h a (by simp)),
      takeWhile_app_all p A B (fun x hx => h x (by simp [hx]))]
    rfl

/-- Characterization of the fold inside `reuseLen`. -/
theorem reuseLen_fold (startB : Nat) : ∀ (cs : List SNode) (init : Nat),
    (cs.foldl (fun b c => if (rangeOf c).stop ≤ startB && endsInSemi c then (rangeOf c).stop else b) init = init) ∨
    ∃ c ∈ cs, (cs.foldl (fun b c => if (rangeOf c).stop ≤ startB && endsInSemi c then (rangeOf c).stop else b) init = (rangeOf c).stop ∧
      endsInSemi c = true ∧ (rangeOf c).stop ≤ startB)
  | [], _ => Or.inl rfl
  | c :: cs, init => by
    rw [List.foldl_cons]
    rcases reuseLen_fold startB cs
        (if (rangeOf c).stop ≤ startB && endsInSemi c then (rangeOf c).stop else init) with
      h | ⟨c', hm, h1, h2, h3⟩
    · rw [h]
      by_cases hcond : (decide ((rangeOf c).stop ≤ startB) && endsInSemi c) = true
      · right
        simp only [Bool.and_eq_true, decide_eq_true_eq] at hcond
        refine ⟨c, by simp, ?_, hcond.2, hcond.1⟩
        rw [if_pos (by simp [hcond.1, hcond.2])]
      · left
        rw [if_neg (by simpa using hcond)]
    · right
      exact ⟨c', by simp [hm], h1, h2, h3⟩

/-- The reuse boundary is zero or the right end of a reusable top-level
child that ends in a semicolon at or before the edit. -/
theorem reuseLen_spec (cs : List SNode) (startB : Nat) :
    reuseLen cs startB = 0 ∨
    ∃ c ∈ cs, reuseLen cs startB = (rangeOf c).stop ∧
      endsInSemi c = true ∧ (rangeOf c).stop ≤ startB :=
  reuseLen_fold startB cs 0

/-- Key equivalence: the Incremental Re-parser applied to a previously parsed
tree and an edit produces exactly the tree of a from-scratch full parse of
the post-edit text. -/
theorem reparse_eq_full (S : List Nat) (e : Edit) (ins : List Nat) :
    reparse (parse S) e (editApply S e ins) = parse (editApply S e ins) := by
  obtain ⟨hwf, hsb, hpos⟩ := parse_children_spec S
  set cs := parseTop (tokenizeAt grammarTable S 0) with hcs
  set newSrc := editApply S e ins with hnew
  set b := reuseLen cs e.start_byte with hb
  have hgoal : reparse (parse S) e newSrc =
      SNode.node .sourceFile ⟨0, newSrc.length⟩
        (List.takeWhile (fun c => decide ((rangeOf c).stop ≤ b)) cs ++
          parseTop (tokenizeAt grammarTable (newSrc.drop b) b)) := rfl
  have hparse_new : parse newSrc =
      SNode.node .sourceFile ⟨0, newSrc.length⟩
        (parseTop (tokenizeAt grammarTable newSrc 0)) := rfl
  rw [hgoal, hparse_new]
  congr 1
  rcases reuseLen_spec cs e.start_byte with hb0 | ⟨c, hmem, hbc, hsemi, hble⟩
  · -- reuse boundary zero: the whole text is reparsed
    have hb0' : b = 0 := hb.trans hb0
    rw [hb0', List.drop_zero]
    rcases hcse : cs with _ | ⟨c0, cs'⟩
    · simp
    · have hwf' := hcse ▸ hwf
      simp only [childrenWf, Bool.and_eq_true, decide_eq_true_eq] at hwf'
      have hpos0 := hpos c0 (by rw [hcse]; simp)
      rw [List.takeWhile_cons_of_neg]
      · simp
      · simp only [decide_eq_true_eq]
        omega
  · -- reuse up to a semicolon boundary b
    obtain ⟨hcwf, hcle⟩ := childrenWf_mem 0 cs S.length hwf c hmem
    have hcsb := semiByteOkL_mem S cs hsb c hmem
    have hlsemi : (lastLeafKR c).1 = Kind.semi := by simpa [endsInSemi] using hsemi
    obtain ⟨s, hs1, hs2⟩ := lastLeaf_semi_byte S c hcwf hcsb hlsemi
    have hbs : b = s + 1 := by rw [hb, hbc, hs1]
    obtain ⟨hslen, -⟩ := List.getElem?_eq_some.mp hs2
    have hbcstop : b = (rangeOf c).stop := hb.trans hbc
    have hbS : b ≤ S.length := by omega
    have hbstart : b ≤ e.start_byte := by rw [hb, hbc]; exact hble
    set X := S.take b with hX
    have hXlen : X.length = b := by rw [hX, List.length_take]; omega
    have hXlast : X.getLast? = some 59 := by
      rw [hX, List.getLast?_eq_getElem?, List.length_take]
      have hmin : min b S.length - 1 = s := by omega
      rw [hmin, List.getElem?_take, if_pos (by omega)]
      exact hs2
    have hSsplit : X ++ S.drop b = S := List.take_append_drop b S
    have htokS : tokenizeAt grammarTable S 0 =
        tokenizeAt grammarTable X 0 ++ tokenizeAt grammarTable (S.drop b) b := by
      conv_lhs => rw [← hSsplit]
      rw [tok_split X (S.drop b) 0 hXlast, Nat.zero_add, hXlen]
    have hlastTok := tok_last_semi X 0 hXlast
    have hA : cs = parseTop (tokenizeAt grammarTable X 0) ++
        parseTop (tokenizeAt grammarTable (S.drop b) b) := by
      rw [hcs, htokS, parseTop_split _ _ _ hlastTok rfl]
    have hchX := tok_chain grammarTable X 0
    rw [Nat.zero_add, hXlen] at hchX
    have hsemiX : ∀ tok ∈ tokenizeAt grammarTable X 0, tok.kind = .semi →
        tok.stop = tok.start + 1 ∧ S[tok.start]? = some 59 := by
      intro tok hm hk
      obtain ⟨h1, -, h3⟩ := tok_semi_byte X 0 tok hm hk
      rw [Nat.sub_zero, hX, List.getElem?_take] at h3
      split_ifs at h3 with hlt
      exact ⟨h1, h3⟩
    obtain ⟨hAwf, hAsb, hApos⟩ :=
      parseTop_spec S (tokenizeAt grammarTable X 0) 0 b hchX hsemiX
    have hchD := tok_chain grammarTable (S.drop b) b
    have hlenD : b + (S.drop b).length = S.length := by
      rw [List.length_drop]; omega
    rw [hlenD] at hchD
    have hsemiD : ∀ tok ∈ tokenizeAt grammarTable (S.drop b) b, tok.kind = .semi →
        tok.stop = tok.start + 1 ∧ S[tok.start]? = some 59 := by
      intro tok hm hk
      obtain ⟨h1, h2, h3⟩ := tok_semi_byte (S.drop b) b tok hm hk
      rw [List.getElem?_drop] at h3
      have heq : b + (tok.start - b) = tok.start := by omega
      rw [heq] at h3
      exact ⟨h1, h3⟩
    obtain ⟨hBwf, hBsb, hBpos⟩ :=
      parseTop_spec S (tokenizeAt grammarTable (S.drop b) b) b S.length hchD hsemiD
    have htw : List.takeWhile (fun c => decide ((rangeOf c).stop ≤ b)) cs =
        parseTop (tokenizeAt grammarTable X 0) := by
      rw [hA, takeWhile_app_all]
      · rcases hBe : parseTop (tokenizeAt grammarTable (S.drop b) b) with _ | ⟨c0, B'⟩
        · simp
        · have hBwf' := hBe ▸ hBwf
          simp only [childrenWf, Bool.and_eq_true, decide_eq_true_eq] at hBwf'
          have hp := hBpos c0 (by rw [hBe]; simp)
          rw [List.takeWhile_cons_of_neg]
          · simp
          · simp only [decide_eq_true_eq]
            omega
      · intro a ha
        have := childrenWf_mem 0 _ b hAwf a ha
        simp only [decide_eq_true_eq]
        exact this.2
    have hnewtake : newSrc.take b = X := by
      rw [hnew]
      show (S.take e.start_byte ++ ins ++ S.drop e.old_end_byte).take b = X
      rw [List.take_append_of_le_length
          (by simp only [List.length_append, List.length_take]; omega),
        List.take_append_of_le_length (by rw [List.length_take]; omega),
        List.take_take, min_eq_left hbstart, hX]
    have hnewsplit : X ++ newSrc.drop b = newSrc := by
      rw [← hnewtake]
      exact List.take_append_drop b newSrc
    have htokN : tokenizeAt grammarTable newSrc 0 =
        tokenizeAt grammarTable X 0 ++ tokenizeAt grammarTable (newSrc.drop b) b := by
      conv_lhs => rw [← hnewsplit]
      rw [tok_split X _ 0 hXlast, Nat.zero_add, hXlen]
    rw [htw, htokN, parseTop_split _ _ _ hlastTok rfl]

/-- After the guard macro is defined, further inclusions emit nothing. -/
theorem includeHeaderN_defined : ∀ n : Nat, includeHeaderN n true = []
  | 0 => rfl
  | n + 1 => by
    show ([] : List CDecl) ++ includeHeaderN n true = []
    rw [List.nil_append, includeHeaderN_defined n]

/-- C1.  For every source input, including the empty input, pure whitespace
and arbitrary byte garbage, parsing terminates and returns a syntax tree
spanning exactly the whole input; the parse function is total (it returns a
tree, never a failure value), so lexical and syntactic errors can only appear
inline as error-kind nodes in that tree. -/
theorem claim_C1_parse_total (S : List Nat) :
    ∃ cs, parse S = SNode.node .sourceFile ⟨0, S.length⟩ cs :=
  ⟨parseTop (tokenizeAt grammarTable S 0), rfl⟩

/-- C2.  For every source input `S` the byte ranges of the leaves of the tree
returned by parsing `S`, read left to right, partition `[0, S.length)`
exactly: the first starts at 0, each starts where the previous stopped (no
gap, no overlap), and the last stops at `S.length`, so every byte is covered
by exactly one leaf. -/
theorem claim_C2_leaf_partition (S : List Nat) :
    chainR 0 (leafRanges (parse S)) S.length = true := by
  have h := leafRanges_chain (parse S) (parse_wf_aux S)
  have hr : rangeOf (parse S) = ⟨0, S.length⟩ := rfl
  rw [hr] at h
  exact h

/-- C3.  In every tree produced by a parse or by an incremental reparse of a
parsed tree, every node satisfies the structural invariant checked by
`nodeWf`: an interior node's byte range equals the union of its children's
ranges, and the children sit contiguously, without overlap and in order. -/
theorem claim_C3_node_ranges :
    (∀ S : List Nat, nodeWf (parse S) = true) ∧
    (∀ (S ins : List Nat) (e : Edit),
      nodeWf (reparse (parse S) e (editApply S e ins)) = true) := by
  refine ⟨parse_wf_aux, ?_⟩
  intro S ins e
  rw [reparse_eq_full]
  exact parse_wf_aux _

/-- C4.  Parsing is deterministic: the tree is a function of the input bytes
alone — two parses of equal inputs yield identical trees (the model has no
other inputs: no time, no unordered iteration state). -/
theorem claim_C4_deterministic (S₁ S₂ : List Nat) (h : S₁ = S₂) :
    parse S₁ = parse S₂ := by
  rw [h]

/-- Witness for C4 at a concrete input. -/
theorem claim_C4_deterministic_witness :
    parse [99, 117, 98, 101] = parse [99, 117, 98, 101] :=
  claim_C4_deterministic [99, 117, 98, 101] [99, 117, 98, 101] rfl

/-- C5.  For every source text `S`, every edit descriptor and every
replacement text, incrementally reparsing the previously parsed tree of `S`
together with the edit yields exactly the tree of a from-scratch full parse
of the post-edit text. -/
theorem claim_C5_incremental_equivalence (S ins : List Nat) (e : Edit) :
    reparse (parse S) e (editApply S e ins) = parse (editApply S e ins) :=
  reparse_eq_full S e ins

/-- C6.  The entry point declared by the header takes no input other than a
unit argument and on every call returns a handle to the same process-wide
singleton Grammar Table; any two calls return the identical table value, so
the handle stays valid as long as the table exists (forever, in the model:
the table is an immutable constant and no teardown exists). -/
theorem claim_C6_entry_singleton (u v : Unit) :
    treeSitterOpenscadParser u = treeSitterOpenscadParser v ∧
    treeSitterOpenscadParser u = grammarTable :=
  ⟨rfl, rfl⟩

/-- C7.  The Grammar Table is never mutated: a parse call, seen as a
transformer of the process state (whose only component is the table), returns
the table unchanged, as does an entry-point call; and every parse reads the
very singleton handle that the entry point returns, shared by all parses. -/
theorem claim_C7_table_immutable :
    (∀ (g : GrammarTable) (S : List Nat), (parseStep g S).2 = g) ∧
    (∀ (g : GrammarTable) (u : Unit), (entryStep g u).2 = g) ∧
    (∀ S : List Nat, parse S = parseWith (treeSitterOpenscadParser ()) S) :=
  ⟨fun _ _ => rfl, fun _ _ => rfl, fun _ => rfl⟩

/-- C8.  When the scanner meets a byte it cannot classify it emits a
single-byte error-kind token covering that byte and advances exactly one
position; and on any nonempty buffer the scanner always emits a first token
that starts at the scan position and ends strictly after it, so repeated
scanning makes progress and terminates. -/
theorem claim_C8_scanner_progress :
    (∀ (b : Nat) (rest : List Nat) (p : Nat), unclassifiable b = true →
      tokenizeAt grammarTable (b :: rest) p =
        ⟨.errorTok, p, p + 1⟩ :: tokenizeAt grammarTable rest (p + 1)) ∧
    (∀ (b : Nat) (rest : List Nat) (p : Nat),
      ∃ tok toks, tokenizeAt grammarTable (b :: rest) p = tok :: toks ∧
        tok.start = p ∧ p < tok.stop) := by
  constructor
  · intro b rest p hun
    have hs : scanHead grammarTable b rest = (.errorTok, 0) := by
      simp only [unclassifiable, Bool.and_eq_true, Bool.not_eq_true',
        decide_eq_true_eq, decide_eq_false_iff_not] at hun
      unfold scanHead
      rw [if_neg (by simp [hun.1.1.1.1.1]), if_neg (by simp [hun.1.1.1.1.2]),
        if_neg hun.1.1.1.2, if_neg hun.1.1.2, if_neg hun.1.2,
        if_neg (by simp [hun.2])]
    rw [tokenizeAt_cons, hs]
    simp
  · intro b rest p
    rw [tokenizeAt_cons]
    refine ⟨_, _, rfl, rfl, ?_⟩
    show p < p + 1 + (scanHead grammarTable b rest).2
    omega

/-- Witness for C8: the byte 64 (`@`) is unclassifiable and scans to a
single-byte error token followed by the scan of the remainder. -/
theorem claim_C8_scanner_progress_witness :
    tokenizeAt grammarTable [64, 97] 0 =
      ⟨.errorTok, 0, 1⟩ :: tokenizeAt grammarTable [97] 1 :=
  claim_C8_scanner_progress.1 64 [97] 0 (by decide)

/-- C9.  Parsing the input `cube(10);` returns a tree whose root spans
`[0, 9)` and holds one statement node containing a call node for the
identifier at `[0, 4)` (`cube`) with exactly one numeric-literal argument at
`[5, 7)` (`10`); parsing the truncated input `cube(10` returns a root
spanning `[0, 7)` whose call node carries a zero-width `missing` error marker
at the unterminated end. -/
theorem claim_C9_examples :
    parse [99, 117, 98, 101, 40, 49, 48, 41, 59] =
      SNode.node .sourceFile ⟨0, 9⟩
        [SNode.node .statement ⟨0, 9⟩
          [SNode.node .call ⟨0, 8⟩
            [SNode.leaf .ident ⟨0, 4⟩, SNode.leaf .lparen ⟨4, 5⟩,
             SNode.leaf .number ⟨5, 7⟩, SNode.leaf .rparen ⟨7, 8⟩],
           SNode.leaf .semi ⟨8, 9⟩]] ∧
    parse [99, 117, 98, 101, 40, 49, 48] =
      SNode.node .sourceFile ⟨0, 7⟩
        [SNode.node .statement ⟨0, 7⟩
          [SNode.node .call ⟨0, 7⟩
            [SNode.leaf .ident ⟨0, 4⟩, SNode.leaf .lparen ⟨4, 5⟩,
             SNode.leaf .number ⟨5, 7⟩, SNode.leaf .missing ⟨7, 7⟩]]] :=
  ⟨rfl, rfl⟩

/-- C10.  Including the header any positive number of times in one
translation unit introduces exactly the declarations of a single inclusion:
the include guard makes inclusion idempotent. -/
theorem claim_C10_include_guard_idempotent (n : Nat) (h : 1 ≤ n) :
    includeHeaderN n false = includeHeaderN 1 false := by
  cases n with
  | zero => exact absurd h (by decide)
  | succ m =>
    show (includeHeaderOnce false).1 ++ includeHeaderN m (includeHeaderOnce false).2 = _
    rw [show (includeHeaderOnce false).2 = true from rfl, includeHeaderN_defined m]
    rfl

/-- Witness for C10 at three inclusions. -/
theorem claim_C10_include_guard_idempotent_witness :
    includeHeaderN 3 false = includeHeaderN 1 false :=
  claim_C10_include_guard_idempotent 3 (by decide)
